import Mathlib

/-!
Verification of the chunking and similarity-ranking core of the
Document-RAG-System repository (`index_documents.py`, `search_documents.py`).

Texts are modelled as `List Char`, Python `int` as `Int`, Python `float`
scores as `ℚ` (the numeric cosine routine from sklearn is kept abstract),
and a Python exception as an `Option`/`none` outcome.
-/

namespace DocRag

/-- Normalisation of one Python slice index: negative indices count from the
end of the sequence and are clamped at 0; non-negative indices are clamped at
the length. -/
def pyIndex (n : Nat) (i : Int) : Nat :=
  if i < 0 then (i + n).toNat else min i.toNat n

/-- Python slice `l[a:b]` (step 1) on a character sequence. -/
def pySlice (l : List Char) (a b : Int) : List Char :=
  (l.take (pyIndex l.length b)).drop (pyIndex l.length a)

/-- The `while start < len(text)` loop of `TextChunker.fixed_size_chunks`
(`index_documents.py` lines 52-58), made total with an explicit fuel counter:
`none` means the fuel ran out, i.e. the Python loop has not terminated within
`fuel` iterations.  Each iteration slices `text[start:start+chunk_size]`,
appends it, advances `start` to `end - overlap`, and stops once a produced
slice reaches the end of the text. -/
def fixedSizeLoop (text : List Char) (chunkSize overlap : Int) :
    Nat → Int → List (List Char) → Option (List (List Char))
  | 0, _, _ => none
  | fuel + 1, start, chunks =>
    if start < (text.length : Int) then
      if (text.length : Int) ≤ start + chunkSize then
        some (chunks ++ [pySlice text start (start + chunkSize)])
      else
        fixedSizeLoop text chunkSize overlap fuel (start + chunkSize - overlap)
          (chunks ++ [pySlice text start (start + chunkSize)])
    else some chunks

/-- `TextChunker.fixed_size_chunks(text, chunk_size, overlap)`
(`index_documents.py` lines 49-60).  The fuel `text.length + 1` is enough for
every terminating run of the Python loop (the start offset, when it advances
at all, advances by at least one position per iteration); `none` therefore
means the Python code diverges. -/
def fixed_size_chunks (text : List Char) (chunkSize overlap : Int) :
    Option (List (List Char)) :=
  fixedSizeLoop text chunkSize overlap (text.length + 1) 0 []

/-- Reference recursion for the chunks produced from start offset `s` onward
when `overlap < chunk_size` (junk value `[]` otherwise); used to state and
prove properties of `fixed_size_chunks`. -/
def chunksFrom (text : List Char) (cs ov : Nat) (s : Nat) : List (List Char) :=
  if _h : s < text.length ∧ ov < cs then
    if text.length ≤ s + cs then [(text.take (s + cs)).drop s]
    else (text.take (s + cs)).drop s :: chunksFrom text cs ov (s + (cs - ov))
  else []
termination_by text.length - s
decreasing_by
  omega

/-- Concatenation of a chunk sequence after removing from each chunk beyond
the first its leading `ov`-character span (the overlapping redundant span). -/
def reassemble (ov : Nat) : List (List Char) → List Char
  | [] => []
  | c :: rest => c ++ (rest.map (fun d => d.drop ov)).flatten

/-- Python `str.replace(a, b)` for single characters. -/
def replaceChar (a b : Char) (l : List Char) : List Char :=
  l.map (fun c => if c = a then b else c)

/-- Python `str.split(sep)` for a single-character separator: empty fragments
are kept, and the empty string splits to one empty fragment. -/
def pySplit (sep : Char) : List Char → List (List Char)
  | [] => [[]]
  | c :: cs =>
    if c = sep then [] :: pySplit sep cs
    else
      match pySplit sep cs with
      | [] => [[c]]
      | g :: gs => (c :: g) :: gs

/-- Python `str.strip()`: remove whitespace from both ends. -/
def pyStrip (l : List Char) : List Char :=
  ((l.dropWhile Char.isWhitespace).reverse.dropWhile Char.isWhitespace).reverse

/-- Python `sep.join(parts)`. -/
def joinSep (sep : List Char) : List (List Char) → List Char
  | [] => []
  | [x] => x
  | x :: y :: xs => x ++ sep ++ joinSep sep (y :: xs)

/-- The sentence-extraction pipeline of `TextChunker.sentence_based_chunks`
(`index_documents.py` lines 75-76): normalise `!` and `?` to `.`, split on
`.`, strip each fragment, and discard fragments that are empty after
stripping. -/
def sentencesOf (text : List Char) : List (List Char) :=
  ((pySplit '.' (replaceChar '?' '.' (replaceChar '!' '.' text))).map pyStrip).filter
    (fun s => !s.isEmpty)

/-- The `for i in range(0, len(sentences), sentences_per_chunk)` loop of
`sentence_based_chunks` (`index_documents.py` lines 78-82): join each batch of
`k` consecutive sentences with `". "`, and append the joined batch plus a
trailing `"."` when the joined batch is non-empty.  The `k = 0` guard is a
junk value; the caller maps that case to a raised error separately. -/
def buildSentenceChunks (k : Nat) (l : List (List Char)) : List (List Char) :=
  if _h : l = [] ∨ k = 0 then []
  else
    (if joinSep ['.', ' '] (l.take k) = [] then []
     else [joinSep ['.', ' '] (l.take k) ++ ['.']]) ++
      buildSentenceChunks k (l.drop k)
termination_by l.length
decreasing_by
  rw [List.length_drop]
  push_neg at _h
  have := List.length_pos.mpr _h.1
  omega

/-- `TextChunker.sentence_based_chunks(text, sentences_per_chunk)`
(`index_documents.py` lines 62-84).  `sentences_per_chunk = 0` makes Python's
`range` raise `ValueError` (modelled as `none`); a negative value makes the
`range` empty, so no chunks are produced. -/
def sentence_based_chunks (text : List Char) (spc : Int) :
    Option (List (List Char)) :=
  if spc = 0 then none
  else if spc < 0 then some []
  else some (buildSentenceChunks spc.toNat (sentencesOf text))

/-- Grouping of a list into consecutive batches of `k` elements, as the
specification describes it (junk value `[]` for `k = 0`). -/
def groupsOf (k : Nat) (l : List (List Char)) : List (List (List Char)) :=
  if _h : l = [] ∨ k = 0 then []
  else l.take k :: groupsOf k (l.drop k)
termination_by l.length
decreasing_by
  rw [List.length_drop]
  push_neg at _h
  have := List.length_pos.mpr _h.1
  omega

/-- Modelled from the spec's wording for the sentence strategy: group the
extracted sentences into batches of `k`, rejoin each batch with `". "` and
append a trailing `"."` (with no further filtering).  Used to compare the
code's loop against the claimed contract. -/
def sentenceSpec (text : List Char) (k : Nat) : List (List Char) :=
  (groupsOf k (sentencesOf text)).map (fun g => joinSep ['.', ' '] g ++ ['.'])

/-- One persisted row of the `document_chunks` table, as read back by
`search_similar_chunks` (`search_documents.py` lines 103-113). -/
structure ChunkRow where
  id : Nat
  chunk_text : List Char
  embedding : List ℚ
  filename : List Char
  split_strategy : List Char
  created_at : Nat
deriving DecidableEq

/-- The chunk dictionary placed in a search result (the row without its
embedding, `search_documents.py` lines 128-135). -/
structure ChunkResult where
  id : Nat
  chunk_text : List Char
  filename : List Char
  split_strategy : List Char
  created_at : Nat
deriving DecidableEq

/-- Projection of a stored row to its result dictionary. -/
def toResult (r : ChunkRow) : ChunkResult :=
  ⟨r.id, r.chunk_text, r.filename, r.split_strategy, r.created_at⟩

/-- `DatabaseSearch._calculate_similarity` (`search_documents.py` lines
67-84).  The numeric cosine computed by numpy/sklearn is abstracted as the
function `sim`; the exceptions numpy/sklearn raise when one input reshapes to
an empty array or when the two row vectors have different dimensions are
modelled as `none`. -/
def calculate_similarity (sim : List ℚ → List ℚ → ℚ) (vec1 vec2 : List ℚ) :
    Option ℚ :=
  if vec1 = [] ∨ vec2 = [] then none
  else if vec1.length = vec2.length then some (sim vec1 vec2)
  else none

/-- The result-collection loop of `search_similar_chunks`
(`search_documents.py` lines 111-137): scan the rows in store order, skip
rows whose embedding is empty, compute the similarity of the rest, and
propagate any similarity error (`none`) to the whole call. -/
def collectResults (sim : List ℚ → List ℚ → ℚ) (query : List ℚ) :
    List ChunkRow → Option (List (ChunkResult × ℚ))
  | [] => some []
  | r :: rs =>
    if r.embedding = [] then collectResults sim query rs
    else
      match calculate_similarity sim query r.embedding with
      | none => none
      | some sc => (collectResults sim query rs).map (fun t => (toResult r, sc) :: t)

/-- The sort order of `results.sort(key=lambda x: x[1], reverse=True)`:
descending by similarity score. -/
def scoreGE (a b : ChunkResult × ℚ) : Prop := b.2 ≤ a.2

instance : DecidableRel scoreGE :=
  fun a b => inferInstanceAs (Decidable (b.2 ≤ a.2))

instance : IsTotal (ChunkResult × ℚ) scoreGE :=
  ⟨fun a b => le_total b.2 a.2⟩

instance : IsTrans (ChunkResult × ℚ) scoreGE :=
  ⟨fun _ _ _ h1 h2 => le_trans h2 h1⟩

/-- Python slice `l[:k]` for an `int` bound `k`: a negative bound counts from
the end of the list (clamped at 0). -/
def pyTake (l : List (ChunkResult × ℚ)) (k : Int) : List (ChunkResult × ℚ) :=
  if k < 0 then l.take (l.length - (-k).toNat) else l.take k.toNat

/-- `DatabaseSearch.search_similar_chunks` (`search_documents.py` lines
86-143): collect a scored entry per usable row, sort descending by score with
a stable sort (Python's `list.sort` is stable; modelled by insertion sort
under the same ordering), and return the `results[:top_k]` slice.  `none`
models the call raising. -/
def search_similar_chunks (sim : List ℚ → List ℚ → ℚ) (query : List ℚ)
    (rows : List ChunkRow) (topK : Int) : Option (List (ChunkResult × ℚ)) :=
  (collectResults sim query rows).map
    (fun results => pyTake (List.insertionSort scoreGE results) topK)

/-- One row as inserted by the indexing pipeline (`insert_chunks`,
`index_documents.py` lines 185-210; the id and timestamp are generated by the
database and omitted). -/
structure StoredChunk where
  chunk_text : List Char
  embedding : List ℚ
  filename : List Char
  split_strategy : List Char
deriving DecidableEq

/-- `DatabaseManager.delete_all_chunks` (`index_documents.py` lines 178-183):
every row is deleted. -/
def delete_all_chunks (_store : List StoredChunk) : List StoredChunk := []

/-- The embedding loop of `process_document` (`index_documents.py` lines
261-273): each chunk is embedded in order, and a failed embedding call raises
(`none`), aborting the run. -/
def embedAll (embed : List Char → Option (List ℚ)) :
    List (List Char) → Option (List (List ℚ))
  | [] => some []
  | c :: cs =>
    match embed c with
    | none => none
    | some e => (embedAll embed cs).map (fun t => e :: t)

/-- The rows assembled in `chunks_data` (`index_documents.py` lines
265-270). -/
def mkRows (chunks : List (List Char)) (embs : List (List ℚ))
    (filename strategy : List Char) : List StoredChunk :=
  List.zipWith (fun c e => ⟨c, e, filename, strategy⟩) chunks embs

/-- The store-state effect of one `process_document` run from the point the
chunks exist (`index_documents.py` lines 256-277), with the embedding client
abstracted as `embed`: the store is cleared first (line 259), then every
chunk is embedded (lines 262-273; a failure raises, leaving the cleared
store), and only then is the full row set inserted in one bulk call (line
276, modelled as atomic). -/
def process_document_store (embed : List Char → Option (List ℚ))
    (chunks : List (List Char)) (filename strategy : List Char)
    (store0 : List StoredChunk) : List StoredChunk :=
  match embedAll embed chunks with
  | none => delete_all_chunks store0
  | some embs => delete_all_chunks store0 ++ mkRows chunks embs filename strategy

/-- Similarity function ignoring its inputs; used for concrete runs where
only the control flow matters. -/
def simZero : List ℚ → List ℚ → ℚ := fun _ _ => 0

/-- Similarity returning the first coordinate of the stored vector; a
concrete executable similarity used for concrete ranking runs. -/
def simHead : List ℚ → List ℚ → ℚ := fun _ v => v.headD 0

/-- A stored row with the given id and embedding (text fields empty). -/
def mkRow (i : Nat) (e : List ℚ) : ChunkRow := ⟨i, [], e, [], [], 0⟩

/-- A sample pre-existing store row. -/
def demoRow : StoredChunk := ⟨['x'], [1], ['f'], ['s']⟩

theorem pySlice_natCast (text : List Char) (s e : Nat) (hs : s ≤ text.length) :
    pySlice text (s : Int) (e : Int) = (text.take e).drop s := by
  unfold pySlice pyIndex
  have h1 : ¬((s : Int) < 0) := by omega
  have h2 : ¬((e : Int) < 0) := by omega
  rw [if_neg h1, if_neg h2, Int.toNat_natCast, Int.toNat_natCast]
  rw [min_eq_left hs]
  congr 1
  rw [List.take_eq_take]
  omega

theorem fixedSizeLoop_eq (text : List Char) (cs ov : Nat) (hov : ov < cs) :
    ∀ (fuel : Nat) (s : Nat) (acc : List (List Char)),
      text.length - s < fuel →
      fixedSizeLoop text (cs : Int) (ov : Int) fuel (s : Int) acc
        = some (acc ++ chunksFrom text cs ov s) := by
  intro fuel
  induction fuel with
  | zero => intro s acc h; omega
  | succ fuel ih =>
    intro s acc hfuel
    by_cases hs : s < text.length
    · rw [fixedSizeLoop, if_pos (by exact_mod_cast hs)]
      rw [chunksFrom, dif_pos ⟨hs, hov⟩]
      have hcast : (s : Int) + (cs : Int) = ((s + cs : Nat) : Int) := by push_cast; ring
      by_cases hend : text.length ≤ s + cs
      · rw [if_pos (by exact_mod_cast hend), if_pos hend]
        rw [hcast, pySlice_natCast text s (s + cs) hs.le]
      · rw [if_neg (by exact_mod_cast hend), if_neg hend]
        have harg : ((s + cs : Nat) : Int) - (ov : Int)
            = ((s + (cs - ov) : Nat) : Int) := by
          push_cast [Nat.cast_sub hov.le]
          ring
        rw [hcast, pySlice_natCast text s (s + cs) hs.le, harg]
        rw [ih (s + (cs - ov)) _ (by omega)]
        simp
    · rw [fixedSizeLoop, if_neg (by exact_mod_cast hs)]
      rw [chunksFrom, dif_neg (by omega)]
      simp

theorem fixed_size_chunks_eq (text : List Char) (cs ov : Int)
    (h0 : 0 ≤ ov) (h1 : ov < cs) :
    fixed_size_chunks text cs ov = some (chunksFrom text cs.toNat ov.toNat 0) := by
  have hcs : ((cs.toNat : Nat) : Int) = cs := Int.toNat_of_nonneg (by omega)
  have hovc : ((ov.toNat : Nat) : Int) = ov := Int.toNat_of_nonneg h0
  have hlt : ov.toNat < cs.toNat := by omega
  unfold fixed_size_chunks
  have h := fixedSizeLoop_eq text cs.toNat ov.toNat hlt (text.length + 1) 0 [] (by omega)
  rw [hcs, hovc] at h
  simpa using h

theorem chunksFrom_length_le (text : List Char) (cs ov : Nat) (s : Nat) :
    ∀ c ∈ chunksFrom text cs ov s, c.length ≤ cs := by
  induction s using chunksFrom.induct text cs ov with
  | case1 s h hend =>
    rw [chunksFrom, dif_pos h, if_pos hend]
    intro c hc
    simp only [List.mem_singleton] at hc
    subst hc
    simp only [List.length_drop, List.length_take]
    omega
  | case2 s h hend ih =>
    rw [chunksFrom, dif_pos h, if_neg hend]
    intro c hc
    rcases List.mem_cons.mp hc with rfl | hc
    · simp only [List.length_drop, List.length_take]
      omega
    · exact ih c hc
  | case3 s h =>
    rw [chunksFrom, dif_neg h]
    simp

theorem chunksFrom_ne_nil (text : List Char) (cs ov : Nat) (hov : ov < cs)
    (s : Nat) (hs : s < text.length) : chunksFrom text cs ov s ≠ [] := by
  rw [chunksFrom, dif_pos ⟨hs, hov⟩]
  by_cases hend : text.length ≤ s + cs
  · rw [if_pos hend]; simp
  · rw [if_neg hend]; simp

theorem chunksFrom_eq_nil (text : List Char) (cs ov : Nat) (s : Nat)
    (hs : text.length ≤ s) : chunksFrom text cs ov s = [] := by
  rw [chunksFrom, dif_neg (by omega)]

theorem chunksFrom_dropLast (text : List Char) (cs ov : Nat) (hov : ov < cs) (s : Nat) :
    ∀ c ∈ (chunksFrom text cs ov s).dropLast, c.length = cs := by
  induction s using chunksFrom.induct text cs ov with
  | case1 s h hend =>
    rw [chunksFrom, dif_pos h, if_pos hend]
    simp
  | case2 s h hend ih =>
    rw [chunksFrom, dif_pos h, if_neg hend]
    have hne : chunksFrom text cs ov (s + (cs - ov)) ≠ [] :=
      chunksFrom_ne_nil text cs ov h.2 _ (by omega)
    obtain ⟨hd, tl, heq⟩ := List.exists_cons_of_ne_nil hne
    rw [heq]
    rw [heq] at ih
    rw [List.dropLast_cons₂]
    intro c hc
    rcases List.mem_cons.mp hc with rfl | hc
    · simp only [List.length_drop, List.length_take]
      omega
    · exact ih c hc
  | case3 s h =>
    rw [chunksFrom, dif_neg h]
    simp

theorem chunksFrom_getLast (text : List Char) (cs ov : Nat) (hov : ov < cs) :
    ∀ s, s < text.length →
      ∃ lc, (chunksFrom text cs ov s).getLast? = some lc ∧ lc ≠ [] := by
  intro s
  induction s using chunksFrom.induct text cs ov with
  | case1 s h hend =>
    intro hs
    rw [chunksFrom, dif_pos h, if_pos hend]
    refine ⟨(text.take (s + cs)).drop s, by simp, ?_⟩
    intro hnil
    have := congrArg List.length hnil
    simp only [List.length_drop, List.length_take, List.length_nil] at this
    omega
  | case2 s h hend ih =>
    intro hs
    rw [chunksFrom, dif_pos h, if_neg hend]
    obtain ⟨lc, hl, hne⟩ := ih (by omega)
    refine ⟨lc, ?_, hne⟩
    have hne2 : chunksFrom text cs ov (s + (cs - ov)) ≠ [] :=
      chunksFrom_ne_nil text cs ov h.2 _ (by omega)
    obtain ⟨hd, tl, heq⟩ := List.exists_cons_of_ne_nil hne2
    rw [heq]
    rw [heq] at hl
    rw [List.getLast?_cons_cons]
    exact hl
  | case3 s h =>
    intro hs
    exact absurd ⟨hs, hov⟩ h

theorem take_drop_append (x : List Char) (a b : Nat) (hab : a ≤ b) :
    (x.take b).drop a ++ x.drop b = x.drop a := by
  rw [List.drop_take]
  have h := List.drop_take_append_drop x a (b - a)
  rwa [Nat.add_sub_cancel' hab] at h

theorem chunksFrom_flatten_drop (text : List Char) (cs ov : Nat) (hov : ov < cs) :
    ∀ s, s < text.length →
      ((chunksFrom text cs ov s).map (fun d => d.drop ov)).flatten
        = text.drop (s + ov) := by
  intro s
  induction s using chunksFrom.induct text cs ov with
  | case1 s h hend =>
    intro hs
    rw [chunksFrom, dif_pos h, if_pos hend]
    simp only [List.map_cons, List.map_nil, List.flatten_cons, List.flatten_nil,
      List.append_nil]
    rw [List.take_of_length_le hend, List.drop_drop]
  | case2 s h hend ih =>
    intro hs
    rw [chunksFrom, dif_pos h, if_neg hend]
    rw [List.map_cons, List.flatten_cons, ih (by omega)]
    rw [List.drop_drop]
    have harith : s + (cs - ov) + ov = s + cs := by omega
    rw [harith]
    exact take_drop_append text (s + ov) (s + cs) (by omega)
  | case3 s h =>
    intro hs
    exact absurd ⟨hs, hov⟩ h

theorem chunksFrom_reassemble (text : List Char) (cs ov : Nat) (hov : ov < cs)
    (s : Nat) (hs : s < text.length) :
    reassemble ov (chunksFrom text cs ov s) = text.drop s := by
  rw [chunksFrom, dif_pos ⟨hs, hov⟩]
  by_cases hend : text.length ≤ s + cs
  · rw [if_pos hend]
    show (text.take (s + cs)).drop s ++ _ = _
    simp only [List.map_nil, List.flatten_nil, List.append_nil]
    rw [List.take_of_length_le hend]
  · rw [if_neg hend]
    show (text.take (s + cs)).drop s ++ _ = _
    rw [chunksFrom_flatten_drop text cs ov hov (s + (cs - ov)) (by omega)]
    have harith : s + (cs - ov) + ov = s + cs := by omega
    rw [harith]
    exact take_drop_append text s (s + cs) (by omega)

/-- C4: the claim says a configuration with `overlap >= chunk_size` is
rejected as a configuration error before chunking is used.  The code performs
no such validation: on the two-character text `"ab"` with
`chunk_size = 1, overlap = 1` the `fixed_size_chunks` loop never advances its
start offset, so it fails to terminate for every iteration bound (`none` for
every fuel), and the bounded model `fixed_size_chunks` reports the
divergence. -/
theorem c4_overlap_config_not_rejected :
    (∀ (fuel : Nat) (acc : List (List Char)),
        fixedSizeLoop ['a', 'b'] 1 1 fuel 0 acc = none) ∧
      fixed_size_chunks ['a', 'b'] 1 1 = none := by
  have hloop : ∀ (fuel : Nat) (acc : List (List Char)),
      fixedSizeLoop ['a', 'b'] 1 1 fuel 0 acc = none := by
    intro fuel
    induction fuel with
    | zero => intro acc; rfl
    | succ fuel ih =>
      intro acc
      have hstep : fixedSizeLoop ['a', 'b'] 1 1 (fuel + 1) 0 acc
          = fixedSizeLoop ['a', 'b'] 1 1 fuel (0 + 1 - 1)
            (acc ++ [pySlice ['a', 'b'] 0 (0 + 1)]) := by
        rw [fixedSizeLoop, if_pos (by norm_num), if_neg (by norm_num)]
      rw [hstep]
      norm_num
      exact ih _
  exact ⟨hloop, hloop 3 []⟩

/-- C5: for every text and every `chunk_size > overlap >= 0`, concatenating
the chunks returned by `fixed_size_chunks`, after removing from each chunk
beyond the first its leading `overlap`-length span, reconstructs the original
text exactly. -/
theorem c5_fixed_size_reassembles (text : List Char) (cs ov : Int)
    (h0 : 0 ≤ ov) (h1 : ov < cs) :
    ∃ chunks, fixed_size_chunks text cs ov = some chunks ∧
      reassemble ov.toNat chunks = text := by
  refine ⟨_, fixed_size_chunks_eq text cs ov h0 h1, ?_⟩
  rcases eq_or_ne text [] with rfl | hne
  · rw [chunksFrom_eq_nil _ _ _ _ (by simp)]
    rfl
  · have hlen : 0 < text.length := List.length_pos.mpr hne
    have h := chunksFrom_reassemble text cs.toNat ov.toNat (by omega) 0 hlen
    simpa using h

/-- Witness for C5 at `text = "abcde"`, `chunk_size = 3`, `overlap = 1`. -/
theorem c5_witness :
    (0 : Int) ≤ 1 ∧ (1 : Int) < 3 ∧
      ∃ chunks, fixed_size_chunks ("abcde".toList) 3 1 = some chunks ∧
        reassemble (1 : Int).toNat chunks = ("abcde".toList) :=
  ⟨by norm_num, by norm_num,
    c5_fixed_size_reassembles ("abcde".toList) 3 1 (by norm_num) (by norm_num)⟩

/-- C6: for every text and valid `chunk_size > overlap >= 0`,
`fixed_size_chunks` is non-empty iff the text is non-empty (so the empty text
yields the empty sequence), and every returned chunk has length at most
`chunk_size`. -/
theorem c6_fixed_size_nonempty_and_bounded (text : List Char) (cs ov : Int)
    (h0 : 0 ≤ ov) (h1 : ov < cs) :
    ∃ chunks, fixed_size_chunks text cs ov = some chunks ∧
      (chunks ≠ [] ↔ text ≠ []) ∧ ∀ c ∈ chunks, c.length ≤ cs.toNat := by
  refine ⟨_, fixed_size_chunks_eq text cs ov h0 h1, ?_, ?_⟩
  · constructor
    · intro hchunks htext
      exact hchunks (chunksFrom_eq_nil _ _ _ _ (by simp [htext]))
    · intro htext
      exact chunksFrom_ne_nil text cs.toNat ov.toNat (by omega) 0
        (List.length_pos.mpr htext)
  · exact chunksFrom_length_le text cs.toNat ov.toNat 0

/-- Witness for C6 at `text = "abcde"`, `chunk_size = 3`, `overlap = 1`. -/
theorem c6_witness :
    (0 : Int) ≤ 1 ∧ (1 : Int) < 3 ∧
      ∃ chunks, fixed_size_chunks ("abcde".toList) 3 1 = some chunks ∧
        (chunks ≠ [] ↔ ("abcde".toList) ≠ []) ∧
        ∀ c ∈ chunks, c.length ≤ (3 : Int).toNat :=
  ⟨by norm_num, by norm_num,
    c6_fixed_size_nonempty_and_bounded ("abcde".toList) 3 1 (by norm_num) (by norm_num)⟩

/-- C10: for every non-empty text and `0 <= overlap < chunk_size`, every chunk
returned by `fixed_size_chunks` except the last has length exactly
`chunk_size`, and the last chunk is non-empty. -/
theorem c10_only_last_chunk_short (text : List Char) (cs ov : Int)
    (h0 : 0 ≤ ov) (h1 : ov < cs) (htext : text ≠ []) :
    ∃ chunks, fixed_size_chunks text cs ov = some chunks ∧
      (∀ c ∈ chunks.dropLast, c.length = cs.toNat) ∧
      ∃ lc, chunks.getLast? = some lc ∧ lc ≠ [] := by
  refine ⟨_, fixed_size_chunks_eq text cs ov h0 h1, ?_, ?_⟩
  · exact chunksFrom_dropLast text cs.toNat ov.toNat (by omega) 0
  · exact chunksFrom_getLast text cs.toNat ov.toNat (by omega) 0
      (List.length_pos.mpr htext)

theorem filter_orderedInsert_eq (s : ℚ) (x : ChunkResult × ℚ) (hx : x.2 = s)
    (t : List (ChunkResult × ℚ)) :
    (List.orderedInsert scoreGE x t).filter (fun y => decide (y.2 = s))
      = x :: t.filter (fun y => decide (y.2 = s)) := by
  induction t with
  | nil => simp [List.orderedInsert, hx]
  | cons y ys ih =>
    rw [List.orderedInsert]
    by_cases hr : scoreGE x y
    · rw [if_pos hr, List.filter_cons_of_pos (by simp [hx])]
    · have hy : ¬(y.2 = s) := by
        intro h
        exact hr (by unfold scoreGE; rw [h, hx])
      rw [if_neg hr, List.filter_cons_of_neg (by simp [hy]),
        List.filter_cons_of_neg (by simp [hy]), ih]

theorem filter_orderedInsert_ne (s : ℚ) (x : ChunkResult × ℚ) (hx : ¬(x.2 = s))
    (t : List (ChunkResult × ℚ)) :
    (List.orderedInsert scoreGE x t).filter (fun y => decide (y.2 = s))
      = t.filter (fun y => decide (y.2 = s)) := by
  induction t with
  | nil => simp [List.orderedInsert, hx]
  | cons y ys ih =>
    rw [List.orderedInsert]
    by_cases hr : scoreGE x y
    · rw [if_pos hr, List.filter_cons_of_neg (by simp [hx])]
    · by_cases hy : y.2 = s
      · rw [if_neg hr, List.filter_cons_of_pos (by simp [hy]),
          List.filter_cons_of_pos (by simp [hy]), ih]
      · rw [if_neg hr, List.filter_cons_of_neg (by simp [hy]),
          List.filter_cons_of_neg (by simp [hy]), ih]

theorem insertionSort_filter_stable (s : ℚ) (l : List (ChunkResult × ℚ)) :
    (List.insertionSort scoreGE l).filter (fun y => decide (y.2 = s))
      = l.filter (fun y => decide (y.2 = s)) := by
  induction l with
  | nil => rfl
  | cons x xs ih =>
    rw [List.insertionSort]
    by_cases hx : x.2 = s
    · rw [filter_orderedInsert_eq s x hx, ih,
        List.filter_cons_of_pos (by simp [hx])]
    · rw [filter_orderedInsert_ne s x hx, ih,
        List.filter_cons_of_neg (by simp [hx])]

theorem search_eq_pyTake (sim : List ℚ → List ℚ → ℚ) (query : List ℚ)
    (rows : List ChunkRow) (topK : Int) (base res : List (ChunkResult × ℚ))
    (hbase : collectResults sim query rows = some base)
    (hres : search_similar_chunks sim query rows topK = some res) :
    res = pyTake (List.insertionSort scoreGE base) topK := by
  unfold search_similar_chunks at hres
  rw [hbase] at hres
  simpa using hres.symm

theorem pyTake_sublist (l : List (ChunkResult × ℚ)) (k : Int) :
    (pyTake l k).Sublist l := by
  unfold pyTake
  split
  · exact List.take_sublist _ _
  · exact List.take_sublist _ _

/-- C9: for every query vector and every `top_k`, if the store contains no
chunks then `search_similar_chunks` returns the empty result sequence rather
than raising an error. -/
theorem c9_empty_store_empty_results (sim : List ℚ → List ℚ → ℚ)
    (query : List ℚ) (topK : Int) :
    search_similar_chunks sim query [] topK = some [] := by
  unfold search_similar_chunks collectResults pyTake
  split <;> simp [List.insertionSort]

/-- C8: whenever `search_similar_chunks` succeeds, its results are sorted
descending by similarity score, and the entries carrying any given score `s`
appear in the relative order in which their rows were read from the store
(the sort is stable). -/
theorem c8_sorted_descending_stable (sim : List ℚ → List ℚ → ℚ)
    (query : List ℚ) (rows : List ChunkRow) (topK : Int) (s : ℚ)
    (base res : List (ChunkResult × ℚ))
    (hbase : collectResults sim query rows = some base)
    (hres : search_similar_chunks sim query rows topK = some res) :
    res.Pairwise scoreGE ∧
      (res.filter (fun y => decide (y.2 = s))).Sublist
        (base.filter (fun y => decide (y.2 = s))) := by
  have hform := search_eq_pyTake sim query rows topK base res hbase hres
  subst hform
  have hsub := pyTake_sublist (List.insertionSort scoreGE base) topK
  constructor
  · exact List.Pairwise.sublist hsub (List.sorted_insertionSort scoreGE base)
  · have h1 := List.Sublist.filter (fun y => decide (y.2 = s)) hsub
    rwa [insertionSort_filter_stable s base] at h1

/-- Witness for C8: a three-row store with a score tie between the first and
third rows under the dot-product similarity. -/
theorem c8_witness :
    collectResults simHead [1, 0] [mkRow 1 [0, 1], mkRow 2 [1, 0], mkRow 3 [0, 1]]
        = some [(toResult (mkRow 1 [0, 1]), 0), (toResult (mkRow 2 [1, 0]), 1),
          (toResult (mkRow 3 [0, 1]), 0)] ∧
      search_similar_chunks simHead [1, 0]
          [mkRow 1 [0, 1], mkRow 2 [1, 0], mkRow 3 [0, 1]] 5
        = some [(toResult (mkRow 2 [1, 0]), 1), (toResult (mkRow 1 [0, 1]), 0),
          (toResult (mkRow 3 [0, 1]), 0)] ∧
      (List.Pairwise scoreGE
          [(toResult (mkRow 2 [1, 0]), (1 : ℚ)), (toResult (mkRow 1 [0, 1]), 0),
            (toResult (mkRow 3 [0, 1]), 0)] ∧
        (List.filter (fun y => decide (y.2 = (0 : ℚ)))
            [(toResult (mkRow 2 [1, 0]), (1 : ℚ)), (toResult (mkRow 1 [0, 1]), 0),
              (toResult (mkRow 3 [0, 1]), 0)]).Sublist
          (List.filter (fun y => decide (y.2 = (0 : ℚ)))
            [(toResult (mkRow 1 [0, 1]), (0 : ℚ)), (toResult (mkRow 2 [1, 0]), 1),
              (toResult (mkRow 3 [0, 1]), 0)])) :=
  ⟨by decide, by decide,
    c8_sorted_descending_stable simHead [1, 0]
      [mkRow 1 [0, 1], mkRow 2 [1, 0], mkRow 3 [0, 1]] 5 0 _ _
      (by decide) (by decide)⟩

/-- C2 counterexample: the claim says every `top_k <= 0` yields an empty
sequence, but Python's `results[:top_k]` treats a negative bound as counting
from the end: with two equal candidates and `top_k = -1` the search returns
one result, not zero. -/
theorem c2_counterexample :
    search_similar_chunks simZero [1] [mkRow 1 [1], mkRow 2 [1]] (-1)
      ≠ some [] := by
  decide

/-- C2 as amended: when the search succeeds, the result is the `top_k`-prefix
of the ranked sequence for `top_k >= 0` (so fewer entries when the candidate
set is smaller, and an empty sequence for `top_k = 0`), while a negative
`top_k` returns all but the last `|top_k|` ranked entries (Python slice
semantics), not an empty sequence. -/
theorem c2_topk_slice (sim : List ℚ → List ℚ → ℚ) (query : List ℚ)
    (rows : List ChunkRow) (topK : Int) (base res : List (ChunkResult × ℚ))
    (hbase : collectResults sim query rows = some base)
    (hres : search_similar_chunks sim query rows topK = some res) :
    (0 ≤ topK → res = (List.insertionSort scoreGE base).take topK.toNat ∧
        res.length = min topK.toNat base.length) ∧
      (topK < 0 →
        res = (List.insertionSort scoreGE base).take
          (base.length - (-topK).toNat)) := by
  have hform := search_eq_pyTake sim query rows topK base res hbase hres
  subst hform
  constructor
  · intro hk
    unfold pyTake
    rw [if_neg (by omega)]
    refine ⟨rfl, ?_⟩
    rw [List.length_take, List.length_insertionSort]
  · intro hk
    unfold pyTake
    rw [if_pos hk, List.length_insertionSort]

/-- Witness for C2 as amended: two equal-score rows with `top_k = 1`. -/
theorem c2_witness :
    collectResults simZero [1] [mkRow 1 [1], mkRow 2 [1]]
        = some [(toResult (mkRow 1 [1]), 0), (toResult (mkRow 2 [1]), 0)] ∧
      search_similar_chunks simZero [1] [mkRow 1 [1], mkRow 2 [1]] 1
        = some [(toResult (mkRow 1 [1]), 0)] ∧
      ((0 ≤ (1 : Int) →
          [(toResult (mkRow 1 [1]), (0 : ℚ))]
              = (List.insertionSort scoreGE
                [(toResult (mkRow 1 [1]), (0 : ℚ)),
                  (toResult (mkRow 2 [1]), 0)]).take (1 : Int).toNat ∧
            [(toResult (mkRow 1 [1]), (0 : ℚ))].length
              = min (1 : Int).toNat
                [(toResult (mkRow 1 [1]), (0 : ℚ)),
                  (toResult (mkRow 2 [1]), 0)].length) ∧
        ((1 : Int) < 0 →
          [(toResult (mkRow 1 [1]), (0 : ℚ))]
            = (List.insertionSort scoreGE
              [(toResult (mkRow 1 [1]), (0 : ℚ)),
                (toResult (mkRow 2 [1]), 0)]).take
              ([(toResult (mkRow 1 [1]), (0 : ℚ)),
                (toResult (mkRow 2 [1]), 0)].length - (-(1 : Int)).toNat))) :=
  ⟨by decide, by decide,
    c2_topk_slice simZero [1] [mkRow 1 [1], mkRow 2 [1]] 1 _ _
      (by decide) (by decide)⟩

theorem collectResults_none_of_mismatch (sim : List ℚ → List ℚ → ℚ)
    (query : List ℚ) (hq : query ≠ []) :
    ∀ rows : List ChunkRow,
      (∃ r ∈ rows, r.embedding ≠ [] ∧ r.embedding.length ≠ query.length) →
      collectResults sim query rows = none := by
  intro rows
  induction rows with
  | nil => rintro ⟨r, hr, _⟩; exact absurd hr (List.not_mem_nil r)
  | cons r rs ih =>
    rintro ⟨r0, hr0, hne, hlen⟩
    rw [collectResults]
    rcases List.mem_cons.mp hr0 with rfl | hmem
    · rw [if_neg hne]
      have hcalc : calculate_similarity sim query r0.embedding = none := by
        unfold calculate_similarity
        rw [if_neg (by tauto), if_neg (by omega)]
      rw [hcalc]
    · have hnone := ih ⟨r0, hmem, hne, hlen⟩
      by_cases hemb : r.embedding = []
      · rw [if_pos hemb]
        exact hnone
      · rw [if_neg hemb]
        cases hc : calculate_similarity sim query r.embedding with
        | none => rfl
        | some sc => rw [hnone]; rfl

theorem collectResults_some_of_wellformed (sim : List ℚ → List ℚ → ℚ)
    (query : List ℚ) (hq : query ≠ []) :
    ∀ rows : List ChunkRow,
      (∀ r ∈ rows, r.embedding = [] ∨ r.embedding.length = query.length) →
      ∃ base, collectResults sim query rows = some base ∧
        base.map Prod.fst
          = (rows.filter (fun r => !r.embedding.isEmpty)).map toResult := by
  intro rows
  induction rows with
  | nil => intro _; exact ⟨[], rfl, rfl⟩
  | cons r rs ih =>
    intro hall
    obtain ⟨base, hbase, hmap⟩ := ih (fun r hr => hall r (List.mem_cons_of_mem _ hr))
    by_cases hemb : r.embedding = []
    · refine ⟨base, ?_, ?_⟩
      · rw [collectResults, if_pos hemb]
        exact hbase
      · rw [List.filter_cons_of_neg (by simp [hemb])]
        exact hmap
    · have hlen : r.embedding.length = query.length := by
        rcases hall r (List.mem_cons_self r rs) with h | h
        · exact absurd h hemb
        · exact h
      have hcalc : calculate_similarity sim query r.embedding
          = some (sim query r.embedding) := by
        unfold calculate_similarity
        rw [if_neg (by tauto), if_pos hlen.symm]
      refine ⟨(toResult r, sim query r.embedding) :: base, ?_, ?_⟩
      · rw [collectResults, if_neg hemb, hcalc, hbase]
        rfl
      · rw [List.filter_cons_of_pos (by simp [hemb]), List.map_cons,
          List.map_cons, hmap]

/-- C3 counterexample: the claim says a candidate whose stored vector length
differs from the query's is silently excluded and no error is raised; on a
store holding one row with a two-dimensional embedding and a one-dimensional
query the code instead propagates the shape error raised inside the
similarity call (`none`), rather than returning the empty ranking. -/
theorem c3_counterexample :
    search_similar_chunks simZero [1] [mkRow 1 [1, 2]] 5 = none ∧
      search_similar_chunks simZero [1] [mkRow 1 [1, 2]] 5 ≠ some [] := by
  constructor
  · rfl
  · decide

/-- C3 as amended: candidates whose stored vector is empty are silently
excluded and all remaining candidates are ranked, but a candidate whose
non-empty vector length differs from the (non-empty) query vector's length is
not skipped: the similarity computation raises and the whole search produces
no result. -/
theorem c3_empty_skipped_mismatch_raises (sim : List ℚ → List ℚ → ℚ)
    (query : List ℚ) (rows : List ChunkRow) (topK : Int) (hq : query ≠ []) :
    ((∀ r ∈ rows, r.embedding = [] ∨ r.embedding.length = query.length) →
        ∃ base, collectResults sim query rows = some base ∧
          base.map Prod.fst
            = (rows.filter (fun r => !r.embedding.isEmpty)).map toResult) ∧
      ((∃ r ∈ rows, r.embedding ≠ [] ∧ r.embedding.length ≠ query.length) →
        search_similar_chunks sim query rows topK = none) := by
  constructor
  · exact collectResults_some_of_wellformed sim query hq rows
  · intro hex
    unfold search_similar_chunks
    rw [collectResults_none_of_mismatch sim query hq rows hex]
    rfl

/-- Witness for C3 as amended: a store with one empty-embedding row and one
well-formed row, against the one-dimensional query `[1]`. -/
theorem c3_witness :
    ([(1 : ℚ)] ≠ []) ∧
      (((∀ r ∈ [mkRow 1 [], mkRow 2 [1]],
            r.embedding = [] ∨ r.embedding.length = [(1 : ℚ)].length) →
          ∃ base, collectResults simZero [1] [mkRow 1 [], mkRow 2 [1]]
              = some base ∧
            base.map Prod.fst
              = ([mkRow 1 [], mkRow 2 [1]].filter
                  (fun r => !r.embedding.isEmpty)).map toResult) ∧
        ((∃ r ∈ [mkRow 1 [], mkRow 2 [1]],
            r.embedding ≠ [] ∧ r.embedding.length ≠ [(1 : ℚ)].length) →
          search_similar_chunks simZero [1] [mkRow 1 [], mkRow 2 [1]] 7
            = none)) :=
  ⟨by decide,
    c3_empty_skipped_mismatch_raises simZero [1] [mkRow 1 [], mkRow 2 [1]] 7
      (by decide)⟩

theorem embedAll_length (embed : List Char → Option (List ℚ)) :
    ∀ (cs : List (List Char)) (embs : List (List ℚ)),
      embedAll embed cs = some embs → embs.length = cs.length := by
  intro cs
  induction cs with
  | nil =>
    intro embs h
    rw [embedAll] at h
    cases h
    rfl
  | cons c cs ih =>
    intro embs h
    rw [embedAll] at h
    cases he : embed c with
    | none => rw [he] at h; cases h
    | some e =>
      rw [he] at h
      cases ht : embedAll embed cs with
      | none => rw [ht] at h; cases h
      | some t =>
        rw [ht] at h
        simp only [Option.map_some] at h
        cases h
        simp [ih t ht]

/-- C1 counterexample: the claim says an embedding failure mid-run leaves
the stored chunk set unchanged from before the run.  In the code the store
is cleared before the embedding loop, so on a one-chunk document whose
embedding call fails, a store that held one row before the run ends the run
empty, not unchanged. -/
theorem c1_counterexample :
    process_document_store (fun _ => none) [['a']] ['f'] ['s'] [demoRow] = [] ∧
      process_document_store (fun _ => none) [['a']] ['f'] ['s'] [demoRow]
        ≠ [demoRow] := by
  constructor
  · rfl
  · decide

/-- C1 as amended: every `process_document` run first clears the store; then
either every embedding call succeeds and the final store is exactly the full
new chunk set (one row per chunk, inserted in a single bulk call), or some
embedding call fails and the final store is empty — already cleared rather
than unchanged.  In no run is a proper non-empty subset of the new chunks
inserted, and the outcome never depends on the pre-run store contents. -/
theorem c1_clear_then_all_or_nothing (embed : List Char → Option (List ℚ))
    (chunks : List (List Char)) (filename strategy : List Char)
    (store0 : List StoredChunk) :
    (embedAll embed chunks = none ∧
        process_document_store embed chunks filename strategy store0 = []) ∨
      (∃ embs, embedAll embed chunks = some embs ∧
        process_document_store embed chunks filename strategy store0
          = mkRows chunks embs filename strategy ∧
        (mkRows chunks embs filename strategy).length = chunks.length) := by
  cases h : embedAll embed chunks with
  | none =>
    left
    refine ⟨rfl, ?_⟩
    unfold process_document_store
    rw [h]
    rfl
  | some embs =>
    right
    refine ⟨embs, rfl, ?_, ?_⟩
    · unfold process_document_store
      rw [h]
      rfl
    · unfold mkRows
      rw [List.length_zipWith, embedAll_length embed chunks embs h]
      simp

theorem sentencesOf_ne_nil (text : List Char) :
    ∀ x ∈ sentencesOf text, x ≠ [] := by
  intro x hx
  unfold sentencesOf at hx
  have h := List.of_mem_filter hx
  simpa using h

theorem joinSep_ne_nil (sep : List Char) (x : List Char) (hx : x ≠ []) :
    ∀ rest, joinSep sep (x :: rest) ≠ []
  | [] => by simpa [joinSep] using hx
  | y :: ys => by simp [joinSep, hx]

theorem buildSentenceChunks_eq (k : Nat) :
    ∀ l : List (List Char), (∀ x ∈ l, x ≠ []) →
      buildSentenceChunks k l
        = (groupsOf k l).map (fun g => joinSep ['.', ' '] g ++ ['.']) := by
  intro l
  induction l using groupsOf.induct k with
  | case1 l h =>
    intro _
    rw [buildSentenceChunks, dif_pos h, groupsOf, dif_pos h]
    rfl
  | case2 l h ih =>
    intro hall
    rw [buildSentenceChunks, dif_neg h, groupsOf, dif_neg h]
    have hl : l ≠ [] := by tauto
    have hk : k ≠ 0 := by tauto
    obtain ⟨x, xs, rfl⟩ := List.exists_cons_of_ne_nil hl
    obtain ⟨k1, rfl⟩ : ∃ k1, k = k1 + 1 := ⟨k - 1, by omega⟩
    have hjoin : joinSep ['.', ' '] ((x :: xs).take (k1 + 1)) ≠ [] := by
      rw [List.take_succ_cons]
      exact joinSep_ne_nil _ x (hall x (by simp)) _
    rw [if_neg hjoin,
      ih (fun y hy => hall y ((List.drop_sublist _ _).subset hy))]
    simp

theorem replaceChar_of_no_occurrence (a b : Char) (l : List Char)
    (h : ∀ c ∈ l, c ≠ a) : replaceChar a b l = l := by
  unfold replaceChar
  induction l with
  | nil => rfl
  | cons c cs ih =>
    simp only [List.map_cons]
    rw [if_neg (h c (by simp)), ih (fun x hx => h x (by simp [hx]))]

theorem pySplit_no_sep (sep : Char) (l : List Char) (h : ∀ c ∈ l, c ≠ sep) :
    pySplit sep l = [l] := by
  induction l with
  | nil => rfl
  | cons c cs ih =>
    rw [pySplit, if_neg (h c (by simp)),
      ih (fun x hx => h x (by simp [hx]))]

theorem pyStrip_of_whitespace (l : List Char)
    (h : ∀ c ∈ l, c.isWhitespace) : pyStrip l = [] := by
  unfold pyStrip
  have h1 : l.dropWhile Char.isWhitespace = [] := by
    rw [List.dropWhile_eq_nil_iff]
    exact h
  rw [h1]
  rfl

theorem sentencesOf_of_whitespace (text : List Char)
    (h : ∀ c ∈ text, c.isWhitespace) : sentencesOf text = [] := by
  have hne1 : ∀ c ∈ text, c ≠ '!' := fun c hc heq => by
    have hw := h c hc
    rw [heq] at hw
    exact absurd hw (by decide)
  have hne2 : ∀ c ∈ text, c ≠ '?' := fun c hc heq => by
    have hw := h c hc
    rw [heq] at hw
    exact absurd hw (by decide)
  have hne3 : ∀ c ∈ text, c ≠ '.' := fun c hc heq => by
    have hw := h c hc
    rw [heq] at hw
    exact absurd hw (by decide)
  unfold sentencesOf
  rw [replaceChar_of_no_occurrence '!' '.' text hne1,
    replaceChar_of_no_occurrence '?' '.' text hne2,
    pySplit_no_sep '.' text hne3]
  simp [pyStrip_of_whitespace text h]

/-- C7: for every text and positive `sentences_per_chunk`, the code's
sentence strategy agrees with the claimed contract (normalise `!` and `?` to
`.`, split on `.`, trim, discard empties, group into batches of
`sentences_per_chunk`, rejoin each batch with `". "` plus a trailing `.`);
empty or whitespace-only input yields the empty sequence; and on
`"One. Two. Three. Four."` with `sentences_per_chunk = 2` it produces exactly
the two chunks `"One. Two."` and `"Three. Four."`, each ending in `.`. -/
theorem c7_sentence_strategy (text : List Char) (spc : Int) (hspc : 0 < spc) :
    sentence_based_chunks text spc = some (sentenceSpec text spc.toNat) ∧
      ((∀ c ∈ text, c.isWhitespace) → sentence_based_chunks text spc = some []) ∧
      sentence_based_chunks ("One. Two. Three. Four.".toList) 2
        = some [("One. Two.".toList), ("Three. Four.".toList)] ∧
      ("One. Two.".toList).getLast? = some '.' ∧
      ("Three. Four.".toList).getLast? = some '.' := by
  have hmain : ∀ t : List Char,
      sentence_based_chunks t spc = some (sentenceSpec t spc.toNat) := by
    intro t
    unfold sentence_based_chunks sentenceSpec
    rw [if_neg (by omega), if_neg (by omega)]
    rw [buildSentenceChunks_eq spc.toNat (sentencesOf t) (sentencesOf_ne_nil t)]
  refine ⟨hmain text, ?_, ?_, by decide, by decide⟩
  · intro hws
    rw [hmain text]
    unfold sentenceSpec
    rw [sentencesOf_of_whitespace text hws, groupsOf, dif_pos (Or.inl rfl)]
    rfl
  · have hsent : sentencesOf ("One. Two. Three. Four.".toList)
        = [("One".toList), ("Two".toList), ("Three".toList), ("Four".toList)] := by
      decide
    unfold sentence_based_chunks
    rw [if_neg (by norm_num), if_neg (by norm_num), hsent]
    rw [buildSentenceChunks]
    norm_num [joinSep]
    rw [buildSentenceChunks]
    norm_num [joinSep]
    rw [buildSentenceChunks]
    norm_num [joinSep]
    decide

/-- Witness for C7 at `text = "One. Two. Three. Four."` and
`sentences_per_chunk = 2`. -/
theorem c7_witness :
    (0 : Int) < 2 ∧
      (sentence_based_chunks ("One. Two. Three. Four.".toList) 2
          = some (sentenceSpec ("One. Two. Three. Four.".toList) (2 : Int).toNat) ∧
        ((∀ c ∈ ("One. Two. Three. Four.".toList), c.isWhitespace) →
          sentence_based_chunks ("One. Two. Three. Four.".toList) 2 = some []) ∧
        sentence_based_chunks ("One. Two. Three. Four.".toList) 2
          = some [("One. Two.".toList), ("Three. Four.".toList)] ∧
        ("One. Two.".toList).getLast? = some '.' ∧
        ("Three. Four.".toList).getLast? = some '.') :=
  ⟨by norm_num,
    c7_sentence_strategy ("One. Two. Three. Four.".toList) 2 (by norm_num)⟩

/-- Witness for C10 at `text = "abcde"`, `chunk_size = 3`, `overlap = 1`. -/
theorem c10_witness :
    (0 : Int) ≤ 1 ∧ (1 : Int) < 3 ∧ ("abcde".toList) ≠ [] ∧
      ∃ chunks, fixed_size_chunks ("abcde".toList) 3 1 = some chunks ∧
        (∀ c ∈ chunks.dropLast, c.length = (3 : Int).toNat) ∧
        ∃ lc, chunks.getLast? = some lc ∧ lc ≠ [] :=
  ⟨by norm_num, by norm_num, by decide,
    c10_only_last_chunk_short ("abcde".toList) 3 1 (by norm_num) (by norm_num)
      (by decide)⟩

end DocRag
